import Mathlib

/-!
Verification development for the taichi state-flow-graph scheduler core and the
constant-folding pass.

Sources embedded here:
- src/taichi/transforms/constant_fold.cpp : the ConstantFold visitor driver
  (ConstantFold::run, irpass::constant_fold) and the JIT-evaluator cache locking
  protocol (get_jit_evaluator_kernel, jit_evaluate_binary_op).
- src/taichi/program/state_flow_graph.h : the StateFlowGraph data model.  The
  header carries the inline member definitions (Node::pending, Node::executed,
  Node::mark_executed, Node::has_state_flow) which are embedded directly from
  the source; the out-of-line members (insert_edge, extract_to_execute,
  compute_transitive_closure, rebuild_graph, topo_sort_nodes, ...) are not part
  of the given sources, so they are modelled from the specification text, as
  marked on each definition.

Machine integers of the source are modelled as Nat/Int (no overflow is relevant
to any property below); unordered containers are modelled as Finset or as
association lists mirroring the SmallVector-of-(state, SmallSet) layout.
-/

/- ===================== constant_fold.cpp : data model ===================== -/

/-- Embedding of the CompileConfig fields read or written by constant_fold.cpp;
all remaining configuration fields are abstracted into the rest field. -/
structure CompileConfig where
  debug : Bool
  advanced_optimization : Bool
  constant_folding : Bool
  external_optimization_level : Nat
  rest : Nat
deriving DecidableEq, Repr

/-- Embedding of the Program object as seen by ConstantFold::run: its config
plus all other mutable program state (JIT caches, result buffers, ...)
abstracted into one field that the folding loop may freely mutate. -/
structure ProgState where
  config : CompileConfig
  otherState : Nat
deriving DecidableEq, Repr

/-- Embedding of lines 228-230 of constant_fold.cpp: the three configuration
fields that ConstantFold::run temporarily overwrites before its folding loop. -/
def disableForFold (c : CompileConfig) : CompileConfig :=
  { c with
    advanced_optimization := false
    constant_folding := false
    external_optimization_level := 0 }

/-- Embedding of the fixpoint loop of ConstantFold::run (lines 232-239).  One
step is node->accept(&folder) followed by folder.modifier.modify_ir(): it may
mutate the program state and returns the possibly rewritten IR together with
whether any delayed modification was committed.  The loop repeats while the
step reports a modification; fuel bounds the iteration count (the source loop
terminates because each round strictly shrinks the foldable statements).  When
the step reports no modification the IR is unchanged (the delayed modifier had
nothing to commit), so the pre-step IR is returned. -/
def runLoop {IR : Type} (step : ProgState → IR → ProgState × IR × Bool) :
    Nat → ProgState → IR → ProgState × IR × Bool
  | 0, p, ir => (p, ir, false)
  | fuel + 1, p, ir =>
    let r := step p ir
    if r.2.2 then
      let r2 := runLoop step fuel r.1 r.2.1
      (r2.1, r2.2.1, true)
    else
      (r.1, ir, false)

/-- Embedding of ConstantFold::run (constant_fold.cpp lines 223-244): save
program->config, overwrite the three optimization fields, run the folding loop
to a fixpoint, then restore the saved configuration unconditionally. -/
def ConstantFold.run {IR : Type} (step : ProgState → IR → ProgState × IR × Bool)
    (fuel : Nat) (p : ProgState) (ir : IR) : ProgState × IR × Bool :=
  let saved := p.config
  let p1 : ProgState := { p with config := disableForFold p.config }
  let r := runLoop step fuel p1 ir
  ({ r.1 with config := saved }, r.2.1, r.2.2)

/-- Embedding of irpass::constant_fold (constant_fold.cpp lines 251-267): if
config.debug, return false; if not config.advanced_optimization, return false;
otherwise delegate to ConstantFold::run. -/
def irpass.constant_fold {IR : Type}
    (step : ProgState → IR → ProgState × IR × Bool) (fuel : Nat)
    (cfg : CompileConfig) (p : ProgState) (ir : IR) : ProgState × IR × Bool :=
  if cfg.debug = true then
    (p, ir, false)
  else if cfg.advanced_optimization = false then
    (p, ir, false)
  else
    ConstantFold.run step fuel p ir

/- ===================== constant_fold.cpp : theorems ===================== -/

/-- C9: irpass::constant_fold is a guarded no-op: whenever config.debug is true
or config.advanced_optimization is false it returns false and leaves both the
program state and the IR untouched; it invokes the folding fixpoint
ConstantFold::run exactly when both guards pass; and in that case its boolean
result is true iff the folding visitor committed a modification (the loop
result flag equals the first round's modification flag, and every later round
runs only after a modification). -/
theorem constant_fold_guard_spec {IR : Type}
    (step : ProgState → IR → ProgState × IR × Bool) (fuel : Nat)
    (cfg : CompileConfig) (p : ProgState) (ir : IR) :
    ((cfg.debug = true ∨ cfg.advanced_optimization = false) →
      irpass.constant_fold step fuel cfg p ir = (p, ir, false)) ∧
    (cfg.debug = false → cfg.advanced_optimization = true →
      irpass.constant_fold step fuel cfg p ir = ConstantFold.run step fuel p ir) ∧
    (cfg.debug = false → cfg.advanced_optimization = true → 1 ≤ fuel →
      ((irpass.constant_fold step fuel cfg p ir).2.2 =
        (step { p with config := disableForFold p.config } ir).2.2)) := by
  refine ⟨?_, ?_, ?_⟩
  · intro h
    rcases h with h | h <;> simp [irpass.constant_fold, h]
  · intro h1 h2
    simp [irpass.constant_fold, h1, h2]
  · intro h1 h2 hf
    obtain ⟨f, rfl⟩ : ∃ f, fuel = f + 1 := ⟨fuel - 1, (Nat.succ_pred_eq_of_pos hf).symm⟩
    simp only [irpass.constant_fold, h1, h2]
    simp only [ConstantFold.run, runLoop]
    cases hs : (step { p with config := disableForFold p.config } ir).2.2 <;>
      simp [hs]

/-- C9 witness: concrete evaluation of the guarded no-op and of the guard
pass-through on small explicit inputs. -/
theorem constant_fold_guard_spec_witness :
    @irpass.constant_fold Nat (fun p ir => (p, ir + 1, true)) 2
      ⟨true, true, true, 1, 0⟩ ⟨⟨true, true, true, 1, 0⟩, 7⟩ 5 =
      (⟨⟨true, true, true, 1, 0⟩, 7⟩, 5, false) :=
  (constant_fold_guard_spec (fun p ir => (p, ir + 1, true)) 2
      ⟨true, true, true, 1, 0⟩ ⟨⟨true, true, true, 1, 0⟩, 7⟩ 5).1 (Or.inl rfl)

/-- C10: ConstantFold::run leaves program->config unchanged: it saves the
configuration, runs the folding loop under a configuration whose
advanced_optimization and constant_folding are false and whose
external_optimization_level is 0 (debug and all other fields preserved), and
restores the saved configuration before returning — even when the loop body
mutates the program state arbitrarily. -/
theorem constant_fold_run_restores_config {IR : Type}
    (step : ProgState → IR → ProgState × IR × Bool) (fuel : Nat)
    (p : ProgState) (ir : IR) :
    ((ConstantFold.run step fuel p ir).1).config = p.config ∧
    (disableForFold p.config).advanced_optimization = false ∧
    (disableForFold p.config).constant_folding = false ∧
    (disableForFold p.config).external_optimization_level = 0 ∧
    (disableForFold p.config).debug = p.config.debug ∧
    (disableForFold p.config).rest = p.config.rest := by
  refine ⟨?_, rfl, rfl, rfl, rfl, rfl⟩
  simp [ConstantFold.run]

/- ============ constant_fold.cpp : JIT evaluator cache locking ============ -/

/-- Program counter of one thread running the constant-fold JIT evaluation
protocol of constant_fold.cpp.  The positions mirror the source lines:
lookup = inside get_jit_evaluator_kernel holding jit_evaluator_cache_mut just
before the cache.find(id) (lines 30-31); create = after a cache miss, about to
build the kernel and store it (lines 35-69); crit1done = kernel in hand, about
to leave the lock_guard scope (line 71); mid = between the two critical
sections, building the launch context (lines 102-104); invoke = holding the
mutex again, about to run the kernel and fetch the result (lines 106-108);
crit2done = invocation and fetch done, about to release (line 109). -/
inductive CPC where
  | idle
  | lookup
  | create
  | crit1done
  | mid
  | invoke
  | crit2done
  | finished
deriving DecidableEq, Repr

/-- Shared state of the JIT evaluator cache protocol: which of the two threads
holds program->jit_evaluator_cache_mut, the set of cache keys holding a
compiled kernel, how many times a kernel was constructed per key, and each
thread's position in the protocol. -/
structure CacheState where
  lock : Option Bool
  cache : Finset Nat
  creates : Nat → Nat
  pc : Bool → CPC

/-- Replace one thread's program counter. -/
def withPc (s : CacheState) (t : Bool) (q : CPC) : CacheState :=
  { s with pc := fun u => if u = t then q else s.pc u }

/-- Interleaving small-step semantics of the locking protocol of
get_jit_evaluator_kernel (constant_fold.cpp lines 26-72) and
jit_evaluate_binary_op / jit_evaluate_unary_op (lines 101-109, 124-131), for
two threads with request keys given by key.  Acquiring the mutex requires it to
be free; the lookup, the kernel construction, the invocation and the result
fetch each happen while the acquiring thread is inside a lock_guard scope. -/
inductive CStep (key : Bool → Nat) : CacheState → CacheState → Prop where
  | acquire1 (s : CacheState) (t : Bool) (h1 : s.pc t = CPC.idle)
      (h2 : s.lock = none) :
      CStep key s { withPc s t CPC.lookup with lock := some t }
  | lookupHit (s : CacheState) (t : Bool) (h1 : s.pc t = CPC.lookup)
      (h2 : key t ∈ s.cache) :
      CStep key s (withPc s t CPC.crit1done)
  | lookupMiss (s : CacheState) (t : Bool) (h1 : s.pc t = CPC.lookup)
      (h2 : key t ∉ s.cache) :
      CStep key s (withPc s t CPC.create)
  | doCreate (s : CacheState) (t : Bool) (h1 : s.pc t = CPC.create) :
      CStep key s { withPc s t CPC.crit1done with
                    cache := insert (key t) s.cache,
                    creates := fun k => if k = key t then s.creates k + 1 else s.creates k }
  | release1 (s : CacheState) (t : Bool) (h1 : s.pc t = CPC.crit1done) :
      CStep key s { withPc s t CPC.mid with lock := none }
  | acquire2 (s : CacheState) (t : Bool) (h1 : s.pc t = CPC.mid)
      (h2 : s.lock = none) :
      CStep key s { withPc s t CPC.invoke with lock := some t }
  | doInvoke (s : CacheState) (t : Bool) (h1 : s.pc t = CPC.invoke) :
      CStep key s (withPc s t CPC.crit2done)
  | release2 (s : CacheState) (t : Bool) (h1 : s.pc t = CPC.crit2done) :
      CStep key s { withPc s t CPC.finished with lock := none }

/-- Initial protocol state: mutex free, empty cache, no constructions, both
threads idle. -/
def initCacheState : CacheState :=
  { lock := none, cache := ∅, creates := fun _ => 0, pc := fun _ => CPC.idle }

/-- States reachable by interleaving the two threads from the initial state. -/
def cacheReachable (key : Bool → Nat) (s : CacheState) : Prop :=
  Relation.ReflTransGen (CStep key) initCacheState s

/-- Protocol positions at which a thread is inside a lock_guard scope. -/
def inCritical : CPC → Bool
  | CPC.lookup => true
  | CPC.create => true
  | CPC.crit1done => true
  | CPC.invoke => true
  | CPC.crit2done => true
  | _ => false

/-- Inductive invariant of the cache protocol: critical positions own the
mutex, each key is constructed at most once, constructed keys are cached, and
a thread about to construct saw a cache miss that still holds. -/
def CacheInv (key : Bool → Nat) (s : CacheState) : Prop :=
  (∀ t, inCritical (s.pc t) = true → s.lock = some t) ∧
  (∀ k, s.creates k ≤ 1) ∧
  (∀ k, 1 ≤ s.creates k → k ∈ s.cache) ∧
  (∀ t, s.pc t = CPC.create → key t ∉ s.cache)

lemma withPc_pc (s : CacheState) (t : Bool) (q : CPC) (u : Bool) :
    (withPc s t q).pc u = if u = t then q else s.pc u := rfl

lemma cacheInv_init (key : Bool → Nat) : CacheInv key initCacheState := by
  refine ⟨?_, ?_, ?_, ?_⟩
  · intro t h
    simp [initCacheState, inCritical] at h
  · intro k
    simp [initCacheState]
  · intro k hk
    simp [initCacheState] at hk
  · intro t h
    simp [initCacheState] at h

lemma cacheInv_step {key : Bool → Nat} {s s' : CacheState}
    (hstep : CStep key s s') (hinv : CacheInv key s) : CacheInv key s' := by
  obtain ⟨inv1, inv2, inv3, inv4⟩ := hinv
  cases hstep with
  | acquire1 t h1 h2 =>
    refine ⟨?_, inv2, inv3, ?_⟩
    · intro u hu
      by_cases hut : u = t
      · rw [hut]
      · rw [show ({ withPc s t CPC.lookup with lock := some t } : CacheState).pc u =
              (withPc s t CPC.lookup).pc u from rfl, withPc_pc, if_neg hut] at hu
        have e1 := inv1 u hu
        rw [h2] at e1
        exact Option.noConfusion e1
    · intro u hu
      rw [show ({ withPc s t CPC.lookup with lock := some t } : CacheState).pc u =
            (withPc s t CPC.lookup).pc u from rfl, withPc_pc] at hu
      by_cases hut : u = t
      · rw [if_pos hut] at hu
        exact absurd hu (by decide)
      · rw [if_neg hut] at hu
        exact inv4 u hu
  | lookupHit t h1 h2 =>
    refine ⟨?_, inv2, inv3, ?_⟩
    · intro u hu
      rw [withPc_pc] at hu
      by_cases hut : u = t
      · rw [hut]
        exact inv1 t (by rw [h1]; rfl)
      · rw [if_neg hut] at hu
        exact inv1 u hu
    · intro u hu
      rw [withPc_pc] at hu
      by_cases hut : u = t
      · rw [if_pos hut] at hu
        exact absurd hu (by decide)
      · rw [if_neg hut] at hu
        exact inv4 u hu
  | lookupMiss t h1 h2 =>
    refine ⟨?_, inv2, inv3, ?_⟩
    · intro u hu
      rw [withPc_pc] at hu
      by_cases hut : u = t
      · rw [hut]
        exact inv1 t (by rw [h1]; rfl)
      · rw [if_neg hut] at hu
        exact inv1 u hu
    · intro u hu
      rw [withPc_pc] at hu
      by_cases hut : u = t
      · rw [hut]
        exact h2
      · rw [if_neg hut] at hu
        exact inv4 u hu
  | doCreate t h1 =>
    have hmiss : key t ∉ s.cache := inv4 t h1
    have hzero : s.creates (key t) = 0 := by
      by_contra hne
      exact hmiss (inv3 _ (Nat.one_le_iff_ne_zero.mpr hne))
    refine ⟨?_, ?_, ?_, ?_⟩
    · intro u hu
      rw [show (({ withPc s t CPC.crit1done with
              cache := insert (key t) s.cache,
              creates := fun k => if k = key t then s.creates k + 1 else s.creates k } :
                CacheState)).pc u = (withPc s t CPC.crit1done).pc u from rfl,
          withPc_pc] at hu
      by_cases hut : u = t
      · rw [hut]
        exact inv1 t (by rw [h1]; rfl)
      · rw [if_neg hut] at hu
        exact inv1 u hu
    · intro k
      show (if k = key t then s.creates k + 1 else s.creates k) ≤ 1
      by_cases hk : k = key t
      · rw [if_pos hk, hk, hzero]
      · rw [if_neg hk]
        exact inv2 k
    · intro k hk
      rw [show (({ withPc s t CPC.crit1done with
              cache := insert (key t) s.cache,
              creates := fun k => if k = key t then s.creates k + 1 else s.creates k } :
                CacheState)).creates k =
            (if k = key t then s.creates k + 1 else s.creates k) from rfl] at hk
      show k ∈ insert (key t) s.cache
      by_cases hkt : k = key t
      · rw [hkt]
        exact Finset.mem_insert_self _ _
      · rw [if_neg hkt] at hk
        exact Finset.mem_insert_of_mem (inv3 k hk)
    · intro u hu
      rw [show (({ withPc s t CPC.crit1done with
              cache := insert (key t) s.cache,
              creates := fun k => if k = key t then s.creates k + 1 else s.creates k } :
                CacheState)).pc u = (withPc s t CPC.crit1done).pc u from rfl,
          withPc_pc] at hu
      by_cases hut : u = t
      · rw [if_pos hut] at hu
        exact absurd hu (by decide)
      · rw [if_neg hut] at hu
        have e1 := inv1 u (by rw [hu]; rfl)
        have e2 := inv1 t (by rw [h1]; rfl)
        rw [e2] at e1
        exact absurd (Option.some.inj e1).symm hut
  | release1 t h1 =>
    refine ⟨?_, inv2, inv3, ?_⟩
    · intro u hu
      rw [show ({ withPc s t CPC.mid with lock := none } : CacheState).pc u =
            (withPc s t CPC.mid).pc u from rfl, withPc_pc] at hu
      by_cases hut : u = t
      · rw [if_pos hut] at hu
        exact absurd hu (by decide)
      · rw [if_neg hut] at hu
        have e1 := inv1 u hu
        have e2 := inv1 t (by rw [h1]; rfl)
        rw [e2] at e1
        exact absurd (Option.some.inj e1).symm hut
    · intro u hu
      rw [show ({ withPc s t CPC.mid with lock := none } : CacheState).pc u =
            (withPc s t CPC.mid).pc u from rfl, withPc_pc] at hu
      by_cases hut : u = t
      · rw [if_pos hut] at hu
        exact absurd hu (by decide)
      · rw [if_neg hut] at hu
        exact inv4 u hu
  | acquire2 t h1 h2 =>
    refine ⟨?_, inv2, inv3, ?_⟩
    · intro u hu
      by_cases hut : u = t
      · rw [hut]
      · rw [show ({ withPc s t CPC.invoke with lock := some t } : CacheState).pc u =
              (withPc s t CPC.invoke).pc u from rfl, withPc_pc, if_neg hut] at hu
        have e1 := inv1 u hu
        rw [h2] at e1
        exact Option.noConfusion e1
    · intro u hu
      rw [show ({ withPc s t CPC.invoke with lock := some t } : CacheState).pc u =
            (withPc s t CPC.invoke).pc u from rfl, withPc_pc] at hu
      by_cases hut : u = t
      · rw [if_pos hut] at hu
        exact absurd hu (by decide)
      · rw [if_neg hut] at hu
        exact inv4 u hu
  | doInvoke t h1 =>
    refine ⟨?_, inv2, inv3, ?_⟩
    · intro u hu
      rw [withPc_pc] at hu
      by_cases hut : u = t
      · rw [hut]
        exact inv1 t (by rw [h1]; rfl)
      · rw [if_neg hut] at hu
        exact inv1 u hu
    · intro u hu
      rw [withPc_pc] at hu
      by_cases hut : u = t
      · rw [if_pos hut] at hu
        exact absurd hu (by decide)
      · rw [if_neg hut] at hu
        exact inv4 u hu
  | release2 t h1 =>
    refine ⟨?_, inv2, inv3, ?_⟩
    · intro u hu
      rw [show ({ withPc s t CPC.finished with lock := none } : CacheState).pc u =
            (withPc s t CPC.finished).pc u from rfl, withPc_pc] at hu
      by_cases hut : u = t
      · rw [if_pos hut] at hu
        exact absurd hu (by decide)
      · rw [if_neg hut] at hu
        have e1 := inv1 u hu
        have e2 := inv1 t (by rw [h1]; rfl)
        rw [e2] at e1
        exact absurd (Option.some.inj e1).symm hut
    · intro u hu
      rw [show ({ withPc s t CPC.finished with lock := none } : CacheState).pc u =
            (withPc s t CPC.finished).pc u from rfl, withPc_pc] at hu
      by_cases hut : u = t
      · rw [if_pos hut] at hu
        exact absurd hu (by decide)
      · rw [if_neg hut] at hu
        exact inv4 u hu

/-- C8: in every state of the JIT-evaluator cache protocol reachable by
interleaving two threads, each cache key has been compiled at most once (two
threads requesting the same JITEvaluatorId never both construct its kernel,
because the lookup-or-create runs under jit_evaluator_cache_mut), and the
critical sections — cache lookup, kernel construction, kernel invocation and
result fetch — are mutually exclusive under that same mutex. -/
theorem jit_cache_single_compilation (key : Bool → Nat) (s : CacheState)
    (h : cacheReachable key s) :
    (∀ k, s.creates k ≤ 1) ∧
    (∀ t u, inCritical (s.pc t) = true → inCritical (s.pc u) = true → t = u) := by
  have hinv : CacheInv key s := by
    induction h with
    | refl => exact cacheInv_init key
    | tail h1 h2 ih => exact cacheInv_step h2 ih
  obtain ⟨inv1, inv2, _, _⟩ := hinv
  refine ⟨inv2, ?_⟩
  intro t u ht hu
  have e1 := inv1 t ht
  have e2 := inv1 u hu
  rw [e1] at e2
  exact Option.some.inj e2

/-- C8 witness: the at-most-one-compilation bound evaluated in the concrete
state where thread true has just acquired the mutex from the initial state. -/
theorem jit_cache_single_compilation_witness :
    ({ lock := some true, cache := ∅, creates := fun _ => 0,
       pc := fun u => if u = true then CPC.lookup else CPC.idle } : CacheState).creates 3 ≤ 1 :=
  (jit_cache_single_compilation (fun _ => 5) _
    (Relation.ReflTransGen.tail Relation.ReflTransGen.refl
      (CStep.acquire1 initCacheState true rfl rfl))).1 3

/- ================= state_flow_graph.h : Node data model ================= -/

/-- Embedding of AsyncState: an opaque comparable and hashable identifier of
one unit of mutable state. -/
abbrev AsyncState := Nat

/-- Embedding of TaskMeta: the per-task-type sets of AsyncStates read and
written.  The source containers are unordered; they are modelled as lists so
that insertion-order independence is expressible. -/
structure TaskMeta where
  input_states : List AsyncState
  output_states : List AsyncState
deriving DecidableEq, Repr

/-- Embedding of StateFlowGraph::StateToNodesMap (state_flow_graph.h lines
24-25): a small vector of (AsyncState, set of node handles) pairs; node
pointers are modelled as node ids. -/
abbrev StateToNodesMap := List (AsyncState × Finset Nat)

namespace StateFlowGraph

/-- Embedding of StateFlowGraph::Node (state_flow_graph.h lines 33-100).  The
TaskLaunchRecord payload is opaque and modelled as a number; the non-owning
TaskMeta pointer is modelled by value; the launch record field named rec in the
source is named launchRec because rec is reserved in Lean. -/
structure Node where
  launchRec : Nat
  meta : TaskMeta
  is_initial_node : Bool
  node_id : Nat
  pending_node_id : Int
  input_edges : StateToNodesMap
  output_edges : StateToNodesMap
deriving DecidableEq

/-- Embedding of Node::pending (state_flow_graph.h lines 53-55):
pending_node_id >= 0. -/
def Node.pending (n : Node) : Bool :=
  decide (0 ≤ n.pending_node_id)

/-- Embedding of Node::executed (state_flow_graph.h lines 57-59):
pending_node_id == -1. -/
def Node.executed (n : Node) : Bool :=
  decide (n.pending_node_id = -1)

/-- Embedding of Node::mark_executed (state_flow_graph.h lines 61-63). -/
def Node.mark_executed (n : Node) : Node :=
  { n with pending_node_id := -1 }

/-- Embedding of Node::has_state_flow (state_flow_graph.h lines 76-95): an
edge is a flow edge iff the destination node's meta->input_states contains the
state. -/
def Node.has_state_flow (state : AsyncState) (destination : Node) : Bool :=
  destination.meta.input_states.contains state

end StateFlowGraph

/-- Lookup in a StateToNodesMap: the neighbor set recorded under a state, or
the empty set.  Mirrors the linear scan of the SmallVector container. -/
def lookupSTN : StateToNodesMap → AsyncState → Finset Nat
  | [], _ => ∅
  | (t, ns) :: tail, s => if t = s then ns else lookupSTN tail s

/-- Insertion into a StateToNodesMap: add the neighbor to the set recorded
under the state, appending a fresh (state, singleton) entry when the state has
no entry yet.  Modelled from the spec: the container is an associative small
vector of per-state neighbor sets and edge insertion records the neighbor
under the state (the definition of StateFlowGraph::insert_edge is not in the
given sources). -/
def insertSTN : StateToNodesMap → AsyncState → Nat → StateToNodesMap
  | [], s, x => [(s, {x})]
  | (t, ns) :: tail, s, x =>
    if t = s then (t, insert x ns) :: tail else (t, ns) :: insertSTN tail s x

/-- Modelled from the spec: StateFlowGraph::insert_edge(from, to, state) (its
definition is not in the given sources) records to in from's output edges and
from in to's input edges under the state, node pointers standing as node ids. -/
def insert_edge (a b : StateFlowGraph.Node) (state : AsyncState) :
    StateFlowGraph.Node × StateFlowGraph.Node :=
  ({ a with output_edges := insertSTN a.output_edges state b.node_id },
   { b with input_edges := insertSTN b.input_edges state a.node_id })

lemma insertSTN_of_mem (m : StateToNodesMap) (s : AsyncState) (x : Nat)
    (h : x ∈ lookupSTN m s) : insertSTN m s x = m := by
  induction m with
  | nil => simp [lookupSTN] at h
  | cons hd tail ih =>
    obtain ⟨t, ns⟩ := hd
    by_cases hts : t = s
    · rw [lookupSTN, if_pos hts] at h
      rw [insertSTN, if_pos hts, Finset.insert_eq_self.mpr h]
    · rw [lookupSTN, if_neg hts] at h
      rw [insertSTN, if_neg hts, ih h]

/-- C6: edge insertion is idempotent per (state, neighbor) pair: when the edge
is already recorded — the destination in the source's output edges under the
state and the source in the destination's input edges — insert_edge leaves
both edge stores (and both nodes) unchanged, so repeated calls for the same
state never produce duplicate edges. -/
theorem insert_edge_idempotent (a b : StateFlowGraph.Node) (s : AsyncState)
    (h1 : b.node_id ∈ lookupSTN a.output_edges s)
    (h2 : a.node_id ∈ lookupSTN b.input_edges s) :
    insert_edge a b s = (a, b) := by
  unfold insert_edge
  rw [insertSTN_of_mem _ _ _ h1, insertSTN_of_mem _ _ _ h2]

/-- C6 witness: inserting an already-present edge on concrete nodes changes
nothing. -/
theorem insert_edge_idempotent_witness :
    insert_edge
      { launchRec := 0, meta := ⟨[], []⟩, is_initial_node := false, node_id := 1,
        pending_node_id := 0, input_edges := [], output_edges := [(4, {2})] }
      { launchRec := 1, meta := ⟨[4], []⟩, is_initial_node := false, node_id := 2,
        pending_node_id := 1, input_edges := [(4, {1})], output_edges := [] } 4 =
    ({ launchRec := 0, meta := ⟨[], []⟩, is_initial_node := false, node_id := 1,
        pending_node_id := 0, input_edges := [], output_edges := [(4, {2})] },
     { launchRec := 1, meta := ⟨[4], []⟩, is_initial_node := false, node_id := 2,
        pending_node_id := 1, input_edges := [(4, {1})], output_edges := [] }) :=
  insert_edge_idempotent _ _ 4 (by decide) (by decide)

/-- C4: has_state_flow is true iff the destination's input_states contains the
state, and it is a pure function of the destination's meta, independent of the
insertion or traversal order of the unordered input_states container: any
permutation of the recorded states yields the same answer. -/
theorem has_state_flow_spec (s : AsyncState) (d d' : StateFlowGraph.Node)
    (hperm : d.meta.input_states.Perm d'.meta.input_states) :
    (StateFlowGraph.Node.has_state_flow s d = true ↔ s ∈ d.meta.input_states) ∧
    StateFlowGraph.Node.has_state_flow s d = StateFlowGraph.Node.has_state_flow s d' := by
  constructor
  · simp [StateFlowGraph.Node.has_state_flow, List.contains]
  · have h1 : (StateFlowGraph.Node.has_state_flow s d = true) ↔
        (StateFlowGraph.Node.has_state_flow s d' = true) := by
      simp only [StateFlowGraph.Node.has_state_flow]
      simp [List.contains, hperm.mem_iff]
    cases hd : StateFlowGraph.Node.has_state_flow s d with
    | true => exact (h1.mp hd).symm
    | false =>
      cases hd' : StateFlowGraph.Node.has_state_flow s d' with
      | true => rw [hd] at h1; simp at h1; rw [h1] at hd'; exact hd'.symm ▸ rfl
      | false => rfl

/-- C4 witness: concrete evaluation with two permuted input_states lists. -/
theorem has_state_flow_spec_witness :
    (StateFlowGraph.Node.has_state_flow 2
        { launchRec := 0, meta := ⟨[1, 2, 3], []⟩, is_initial_node := false,
          node_id := 0, pending_node_id := 0, input_edges := [], output_edges := [] } = true
      ↔ 2 ∈ [1, 2, 3]) ∧
    StateFlowGraph.Node.has_state_flow 2
        { launchRec := 0, meta := ⟨[1, 2, 3], []⟩, is_initial_node := false,
          node_id := 0, pending_node_id := 0, input_edges := [], output_edges := [] } =
      StateFlowGraph.Node.has_state_flow 2
        { launchRec := 9, meta := ⟨[3, 2, 1], []⟩, is_initial_node := false,
          node_id := 5, pending_node_id := 1, input_edges := [], output_edges := [] } :=
  has_state_flow_spec 2 _ _ (by decide)

/- ============ state_flow_graph.h : topological order (shared) ============ -/

/-- Pick of the topological sort: the first remaining node with no incoming
edge from a remaining node.  Modelled from the spec: topo_sort_nodes reorders
the pending suffix consistently with all surviving edges, ties broken by
original insertion order for determinism (its definition is not in the given
sources). -/
def kahnPick (E : Nat → Nat → Bool) (remaining : List Nat) : Option Nat :=
  remaining.find? (fun r => remaining.all (fun p => !(E p r)))

/-- Fueled worklist loop of the stable topological sort. -/
def kahnAux (E : Nat → Nat → Bool) : Nat → List Nat → List Nat
  | 0, _ => []
  | fuel + 1, remaining =>
    match kahnPick E remaining with
    | none => []
    | some r => r :: kahnAux E fuel (remaining.erase r)

/-- Stable topological order of window positions 0..n-1 under edge relation E. -/
def topoKahn (n : Nat) (E : Nat → Nat → Bool) : List Nat :=
  kahnAux E n (List.range n)

lemma kahnAux_eq_self (E : Nat → Nat → Bool) :
    ∀ (l : List Nat) (fuel : Nat), l.length ≤ fuel → l.Sorted (· < ·) →
      (∀ p r, p ∈ l → r ∈ l → E p r = true → p < r) → kahnAux E fuel l = l := by
  intro l
  induction l with
  | nil =>
    intro fuel _ _ _
    cases fuel with
    | zero => rfl
    | succ f => rfl
  | cons m tail ih =>
    intro fuel hlen hsort hE
    cases fuel with
    | zero => simp at hlen
    | succ f =>
      have hpredm : (fun r => (m :: tail).all (fun p => !(E p r))) m = true := by
        simp only [List.all_eq_true]
        intro p hp
        simp only [Bool.not_eq_true']
        by_contra hEp
        have hEp' : E p m = true := by
          cases hq : E p m with
          | true => rfl
          | false => exact absurd hq hEp
        have hplt := hE p m hp (List.mem_cons_self m tail) hEp'
        rcases List.mem_cons.mp hp with h | h
        · omega
        · have := (List.sorted_cons.mp hsort).1 p h
          omega
      have hpick : kahnPick E (m :: tail) = some m := by
        simp [kahnPick, List.find?, hpredm]
      rw [kahnAux, hpick]
      simp only [List.erase_cons_head]
      rw [ih f (by simpa using Nat.le_of_succ_le_succ hlen)
        (List.sorted_cons.mp hsort).2
        (fun p r hp hr => hE p r (List.mem_cons_of_mem _ hp) (List.mem_cons_of_mem _ hr))]

lemma topoKahn_forward_id (n : Nat) (E : Nat → Nat → Bool)
    (h : ∀ p r, E p r = true → p < r) : topoKahn n E = List.range n :=
  kahnAux_eq_self E (List.range n) n (by simp) (List.sorted_lt_range n)
    (fun p r _ _ hpr => h p r hpr)

lemma getD_map_range {α : Type} (n : Nat) (f : Nat → α) (d : α) (i : Nat)
    (h : i < n) : ((List.range n).map f).getD i d = f i := by
  have hlen : i < ((List.range n).map f).length := by simpa using h
  rw [List.getD_eq_getElem _ _ hlen]
  simp

/- ============ state_flow_graph.h : execution hand-off (C1) ============ -/

/-- Default node used for out-of-range lookups. -/
def dNode : StateFlowGraph.Node :=
  { launchRec := 0, meta := ⟨[], []⟩, is_initial_node := false, node_id := 0,
    pending_node_id := 0, input_edges := [], output_edges := [] }

/-- Whether this node records an output edge (under any state) to node id b. -/
def StateFlowGraph.Node.edgeTo (n : StateFlowGraph.Node) (b : Nat) : Bool :=
  n.output_edges.any (fun p => decide (b ∈ p.2))

/-- Graph store of StateFlowGraph (state_flow_graph.h lines 185-187): the
owned node sequence and the executed/pending boundary.  Edges live inside the
nodes' edge stores; neighbor ids index into nodes_. -/
structure SFG where
  nodes_ : List StateFlowGraph.Node
  first_pending_task_index_ : Nat

/-- Edge relation between node positions of the graph store. -/
def SFG.edgeB (g : SFG) (a b : Nat) : Bool :=
  (g.nodes_.getD a dNode).edgeTo b

/-- Modelled from the spec: extract_to_execute (its definition is not in the
given sources) returns the pending nodes' launch records in a
sequence-consistent (topological) order, marks each consumed node executed via
Node::mark_executed, and advances first_pending_task_index_ past them. -/
def extract_to_execute (g : SFG) : List Nat × SFG :=
  let fp := g.first_pending_task_index_
  let len := g.nodes_.length
  let perm := topoKahn (len - fp) (fun i j => g.edgeB (fp + i) (fp + j))
  (perm.map (fun i => (g.nodes_.getD (fp + i) dNode).launchRec),
   { nodes_ := (List.range len).map (fun i =>
       if fp ≤ i then (g.nodes_.getD i dNode).mark_executed else g.nodes_.getD i dNode),
     first_pending_task_index_ := len })

/-- C1: under the structural invariants I2/I3 (the boundary is within the
sequence and every recorded edge runs from an earlier to a later position),
extract_to_execute returns the pending launch records in an order where for
every surviving edge A→B inside the pending window A's record precedes B's
record (A sits at output position A-fp, B at output position B-fp, and the
former is smaller); every consumed pending node is marked executed — its
pending_node_id becomes the sentinel -1, so executed() is true and pending()
is false — and first_pending_task_index_ is advanced past all of them. -/
theorem extract_to_execute_spec (g : SFG)
    (hfp : g.first_pending_task_index_ ≤ g.nodes_.length)
    (hfwd : ∀ a b, g.edgeB a b = true → a < b) :
    (∀ a b, g.edgeB a b = true → g.first_pending_task_index_ ≤ a →
      b < g.nodes_.length →
        (extract_to_execute g).1.getD (a - g.first_pending_task_index_) 0 =
          (g.nodes_.getD a dNode).launchRec ∧
        (extract_to_execute g).1.getD (b - g.first_pending_task_index_) 0 =
          (g.nodes_.getD b dNode).launchRec ∧
        a - g.first_pending_task_index_ < b - g.first_pending_task_index_) ∧
    (∀ i, g.first_pending_task_index_ ≤ i → i < g.nodes_.length →
      ((extract_to_execute g).2.nodes_.getD i dNode).pending_node_id = -1 ∧
      ((extract_to_execute g).2.nodes_.getD i dNode).executed = true ∧
      ((extract_to_execute g).2.nodes_.getD i dNode).pending = false) ∧
    (extract_to_execute g).2.first_pending_task_index_ = g.nodes_.length := by
  have hperm : topoKahn (g.nodes_.length - g.first_pending_task_index_)
      (fun i j => g.edgeB (g.first_pending_task_index_ + i) (g.first_pending_task_index_ + j)) =
      List.range (g.nodes_.length - g.first_pending_task_index_) := by
    apply topoKahn_forward_id
    intro p r hpr
    have := hfwd _ _ hpr
    omega
  refine ⟨?_, ?_, rfl⟩
  · intro a b hab ha hb
    have haltb : a < b := hfwd a b hab
    have halen : a < g.nodes_.length := lt_trans haltb hb
    have han : a - g.first_pending_task_index_ <
        g.nodes_.length - g.first_pending_task_index_ := by omega
    have hbn : b - g.first_pending_task_index_ <
        g.nodes_.length - g.first_pending_task_index_ := by omega
    refine ⟨?_, ?_, by omega⟩
    · show (List.map _ (topoKahn _ _)).getD _ 0 = _
      rw [hperm, getD_map_range _ _ _ _ han]
      have hfpa : g.first_pending_task_index_ + (a - g.first_pending_task_index_) = a := by
        omega
      rw [hfpa]
    · show (List.map _ (topoKahn _ _)).getD _ 0 = _
      rw [hperm, getD_map_range _ _ _ _ hbn]
      have hfpb : g.first_pending_task_index_ + (b - g.first_pending_task_index_) = b := by
        omega
      rw [hfpb]
  · intro i hi hilen
    have hnode : (extract_to_execute g).2.nodes_.getD i dNode =
        (g.nodes_.getD i dNode).mark_executed := by
      show ((List.range g.nodes_.length).map _).getD i dNode = _
      rw [getD_map_range _ _ _ _ hilen, if_pos hi]
    rw [hnode]
    exact ⟨rfl, rfl, rfl⟩

/-- C1 witness: concrete one-node graph; after extraction the node is marked
executed and the boundary sits past the end. -/
theorem extract_to_execute_spec_witness :
    ((extract_to_execute ⟨[dNode], 0⟩).2.nodes_.getD 0 dNode).pending_node_id = -1 ∧
    (extract_to_execute ⟨[dNode], 0⟩).2.first_pending_task_index_ = 1 := by
  have hfwd : ∀ a b, SFG.edgeB ⟨[dNode], 0⟩ a b = true → a < b := by
    intro a b h
    cases a with
    | zero =>
      simp [SFG.edgeB, dNode, StateFlowGraph.Node.edgeTo] at h
    | succ a0 =>
      simp [SFG.edgeB, List.getD, dNode, StateFlowGraph.Node.edgeTo] at h
  have hmain := extract_to_execute_spec ⟨[dNode], 0⟩ (by decide) hfwd
  exact ⟨(hmain.2.1 0 (by decide) (by decide)).1, hmain.2.2⟩

/- ============ state_flow_graph.h : acyclicity invariant (C2) ============ -/

/-- Abstract view of the graph for the acyclicity invariant: the node count
(position ids 0..numNodes-1, position 0 being the initial node) and the set of
directed edges between positions. -/
structure EdgeGraph where
  numNodes : Nat
  edges : Finset (Nat × Nat)
deriving DecidableEq

/-- Modelled from the spec: graph states reachable from the initial graph by
the public operations under the spec's own I3 discipline — an edge A→B is
inserted only when A's node_id is smaller than B's at insertion time, and
every rewrite pass (fuse, optimize_listgen, demote_activation,
optimize_dead_store, replace_reference, rebuild_graph) preserves I3, as
section 3 of the spec mandates.  insert_node appends an edge-free node;
insert_tasks appends a node and wires it from existing (earlier) latest
owners and readers; delete_nodes keeps a subset of the edges;
reid_nodes/topo_sort_nodes renumber positions consistently with all surviving
edges; extract_to_execute changes no edges.  None of the definitions of these
operations are in the given sources (only header declarations). -/
inductive SFGReaches : EdgeGraph → Prop where
  | start : SFGReaches ⟨1, ∅⟩
  | insert_node (g : EdgeGraph) :
      SFGReaches g → SFGReaches ⟨g.numNodes + 1, g.edges⟩
  | insert_tasks (g : EdgeGraph) (newEdges : Finset (Nat × Nat))
      (h : ∀ e ∈ newEdges, e.1 < g.numNodes ∧ e.2 = g.numNodes) :
      SFGReaches g → SFGReaches ⟨g.numNodes + 1, g.edges ∪ newEdges⟩
  | insert_edge (g : EdgeGraph) (a b : Nat) (hab : a < b) (hb : b < g.numNodes) :
      SFGReaches g → SFGReaches ⟨g.numNodes, insert (a, b) g.edges⟩
  | delete_nodes (g : EdgeGraph) (keep : Finset (Nat × Nat)) (h : keep ⊆ g.edges) :
      SFGReaches g → SFGReaches ⟨g.numNodes, keep⟩
  | renumber (g : EdgeGraph) (pi : Nat → Nat) (h : ∀ e ∈ g.edges, pi e.1 < pi e.2) :
      SFGReaches g → SFGReaches ⟨g.numNodes, g.edges.image (fun e => (pi e.1, pi e.2))⟩
  | rewriteI3 (g : EdgeGraph) (g2 : EdgeGraph) (h : ∀ e ∈ g2.edges, e.1 < e.2) :
      SFGReaches g → SFGReaches g2

/-- Every edge of a reachable graph runs from a smaller to a larger position
(spec invariant I3). -/
lemma sfgReaches_forward {g : EdgeGraph} (h : SFGReaches g) :
    ∀ e ∈ g.edges, e.1 < e.2 := by
  induction h with
  | start => intro e he; simp at he
  | insert_node g _ ih => exact ih
  | insert_tasks g newEdges hnew _ ih =>
    intro e he
    rcases Finset.mem_union.mp he with h1 | h1
    · exact ih e h1
    · obtain ⟨h2, h3⟩ := hnew e h1
      omega
  | insert_edge g a b hab hb _ ih =>
    intro e he
    rcases Finset.mem_insert.mp he with h1 | h1
    · rw [h1]; exact hab
    · exact ih e h1
  | delete_nodes g keep hsub _ ih =>
    intro e he
    exact ih e (hsub he)
  | renumber g pi hpi _ ih =>
    intro e he
    obtain ⟨e0, he0, rfl⟩ := Finset.mem_image.mp he
    exact hpi e0 he0
  | rewriteI3 g g2 h _ => exact h

lemma transGen_lt {R : Nat → Nat → Prop} (h : ∀ a b, R a b → a < b)
    {a b : Nat} (hab : Relation.TransGen R a b) : a < b := by
  induction hab with
  | single h1 => exact h _ _ h1
  | tail _ h2 ih => exact lt_trans ih (h _ _ h2)

/-- C2 (amended): for every graph state reachable from the initial graph by
the public operations invoked under the spec's I3 discipline — insert_edge
called only with the source positioned before the destination, and every
rewrite pass preserving I3 as the spec mandates — the edge relation is
acyclic: no nonempty sequence of edges leads from a node back to itself. -/
theorem sfg_reachable_acyclic (g : EdgeGraph) (h : SFGReaches g) (k : Nat) :
    ¬ Relation.TransGen (fun a b => (a, b) ∈ g.edges) k k := by
  intro hcycle
  have hlt : k < k :=
    transGen_lt (fun a b hab => sfgReaches_forward h (a, b) hab) hcycle
  omega

/-- C2 amended-claim witness: the initial graph is reachable and cycle-free. -/
theorem sfg_reachable_acyclic_witness :
    ¬ Relation.TransGen
      (fun a b => (a, b) ∈ (⟨1, ∅⟩ : EdgeGraph).edges) 0 0 :=
  sfg_reachable_acyclic ⟨1, ∅⟩ SFGReaches.start 0

/-- Modelled from the spec: graph states reachable when the public operations
are taken exactly as declared in the header — in particular insert_edge
(header line 133) takes two arbitrary existing nodes and a state and records
the directed edge, with no precondition relating their positions (I3 is only
a caller-side discipline, not checked by insert_edge). -/
inductive SFGReachesRaw : EdgeGraph → Prop where
  | start : SFGReachesRaw ⟨1, ∅⟩
  | insert_node (g : EdgeGraph) :
      SFGReachesRaw g → SFGReachesRaw ⟨g.numNodes + 1, g.edges⟩
  | insert_edge (g : EdgeGraph) (a b : Nat) (ha : a < g.numNodes)
      (hb : b < g.numNodes) :
      SFGReachesRaw g → SFGReachesRaw ⟨g.numNodes, insert (a, b) g.edges⟩

/-- C2 counterexample: with insert_edge taken as the unguarded public
operation it is declared to be, the graph with nodes 0,1,2 and the two calls
insert_edge(1,2) then insert_edge(2,1) is reachable from the empty graph and
carries the cycle 1 → 2 → 1, refuting the claim over all sequences of public
operations. -/
theorem sfg_raw_cycle :
    SFGReachesRaw ⟨3, insert (2, 1) (insert (1, 2) ∅)⟩ ∧
    Relation.TransGen
      (fun a b => (a, b) ∈ (insert (2, 1) (insert (1, 2) ∅) : Finset (Nat × Nat))) 1 1 := by
  constructor
  · exact SFGReachesRaw.insert_edge ⟨3, insert (1, 2) ∅⟩ 2 1 (by decide) (by decide)
      (SFGReachesRaw.insert_edge ⟨3, (∅ : Finset (Nat × Nat))⟩ 1 2 (by decide) (by decide)
        (SFGReachesRaw.insert_node ⟨2, (∅ : Finset (Nat × Nat))⟩
          (SFGReachesRaw.insert_node ⟨1, (∅ : Finset (Nat × Nat))⟩ SFGReachesRaw.start)))
  · have h12 : (1, 2) ∈ (insert (2, 1) (insert (1, 2) ∅) : Finset (Nat × Nat)) := by decide
    have h21 : (2, 1) ∈ (insert (2, 1) (insert (1, 2) ∅) : Finset (Nat × Nat)) := by decide
    exact Relation.TransGen.head h12 (Relation.TransGen.single h21)

/- ========== state_flow_graph.h : transitive closure (C5) ========== -/

/-- Successors of window position i among positions 0..n-1. -/
def succsIn (E : Nat → Nat → Bool) (n i : Nat) : Finset Nat :=
  (Finset.range n).filter (fun j => E i j = true)

/-- Predecessors of window position i among positions 0..n-1. -/
def predsIn (E : Nat → Nat → Bool) (n i : Nat) : Finset Nat :=
  (Finset.range n).filter (fun j => E j i = true)

/-- One step of the backward sweep: fold the successor rows into row i
(bitwise OR of successor bitsets). -/
def sweepDescStep (E : Nat → Nat → Bool) (n i : Nat) (T : Nat → Finset Nat) :
    Nat → Finset Nat :=
  fun k => if k = i then T i ∪ (succsIn E n i).biUnion T else T k

/-- One step of the forward sweep: fold the predecessor rows into row i. -/
def sweepAncStep (E : Nat → Nat → Bool) (n i : Nat) (T : Nat → Finset Nat) :
    Nat → Finset Nat :=
  fun k => if k = i then T i ∪ (predsIn E n i).biUnion T else T k

/-- Backward sweep after processing the top d window positions
(n-d, ..., n-1) in descending node-id order, starting from singleton rows. -/
def descAux (E : Nat → Nat → Bool) (n : Nat) : Nat → (Nat → Finset Nat)
  | 0 => fun k => {k}
  | d + 1 => sweepDescStep E n (n - (d + 1)) (descAux E n d)

/-- Forward sweep after processing the bottom d window positions
(0, ..., d-1) in ascending node-id order, starting from singleton rows. -/
def ancAux (E : Nat → Nat → Bool) (n : Nat) : Nat → (Nat → Finset Nat)
  | 0 => fun k => {k}
  | d + 1 => sweepAncStep E n d (ancAux E n d)

/-- Descendant bitsets of the full backward sweep. -/
def descTable (E : Nat → Nat → Bool) (n : Nat) : Nat → Finset Nat :=
  descAux E n n

/-- Ancestor bitsets of the full forward sweep. -/
def ancTable (E : Nat → Nat → Bool) (n : Nat) : Nat → Finset Nat :=
  ancAux E n n

/-- Modelled from the spec: compute_transitive_closure (declared at header
lines 135-137, not defined in the given sources) computes, over a pending
window of n tasks with window edge relation E, one descendant bitset and one
ancestor bitset per window position, by a single backward sweep and a single
forward sweep in node-id order accumulating successor/predecessor bitsets
with bitwise OR; bitsets are modelled as Finsets of window positions. -/
def compute_transitive_closure (E : Nat → Nat → Bool) (n : Nat) :
    (Nat → Finset Nat) × (Nat → Finset Nat) :=
  (descTable E n, ancTable E n)

lemma descAux_succ_apply (E : Nat → Nat → Bool) (n d k : Nat) :
    descAux E n (d + 1) k =
      if k = n - (d + 1) then
        descAux E n d (n - (d + 1)) ∪
          (succsIn E n (n - (d + 1))).biUnion (descAux E n d)
      else descAux E n d k := rfl

lemma ancAux_succ_apply (E : Nat → Nat → Bool) (n d k : Nat) :
    ancAux E n (d + 1) k =
      if k = d then
        ancAux E n d d ∪ (predsIn E n d).biUnion (ancAux E n d)
      else ancAux E n d k := rfl

lemma descAux_untouched (E : Nat → Nat → Bool) (n : Nat) :
    ∀ d, d ≤ n → ∀ k, (k < n - d ∨ n ≤ k) → descAux E n d k = {k} := by
  intro d
  induction d with
  | zero => intro _ k _; rfl
  | succ d ih =>
    intro hd k hk
    rw [descAux_succ_apply, if_neg (by omega)]
    exact ih (by omega) k (by omega)

lemma ancAux_untouched (E : Nat → Nat → Bool) (n : Nat) :
    ∀ d, ∀ k, d ≤ k → ancAux E n d k = {k} := by
  intro d
  induction d with
  | zero => intro k _; rfl
  | succ d ih =>
    intro k hk
    rw [ancAux_succ_apply, if_neg (by omega)]
    exact ih k (by omega)

lemma descAux_mem (E : Nat → Nat → Bool) (n : Nat)
    (hE : ∀ i j, E i j = true → i < j) :
    ∀ d, d ≤ n → ∀ k, n - d ≤ k → k < n → ∀ j,
      (j ∈ descAux E n d k ↔
        Relation.ReflTransGen (fun a b => a < n ∧ b < n ∧ E a b = true) k j) := by
  intro d
  induction d with
  | zero => intro _ k hk1 hk2 j; omega
  | succ d ih =>
    intro hd k hk1 hk2 j
    by_cases hki : k = n - (d + 1)
    · subst hki
      rw [descAux_succ_apply, if_pos rfl,
        descAux_untouched E n d (by omega) _ (Or.inl (by omega))]
      constructor
      · intro hj
        rcases Finset.mem_union.mp hj with h1 | h1
        · rw [Finset.mem_singleton.mp h1]
        · obtain ⟨c, hc, hjc⟩ := Finset.mem_biUnion.mp h1
          obtain ⟨hcn, hEc⟩ := Finset.mem_filter.mp hc
          have hcn' : c < n := Finset.mem_range.mp hcn
          have hlt : n - (d + 1) < c := hE _ _ hEc
          have hrc := (ih (by omega) c (by omega) hcn' j).mp hjc
          exact Relation.ReflTransGen.head ⟨hk2, hcn', hEc⟩ hrc
      · intro hr
        rcases Relation.ReflTransGen.cases_head hr with heq | ⟨c, hic, hcj⟩
        · exact Finset.mem_union_left _ (Finset.mem_singleton.mpr heq.symm)
        · obtain ⟨_, hcn, hEc⟩ := hic
          have hlt : n - (d + 1) < c := hE _ _ hEc
          refine Finset.mem_union_right _ (Finset.mem_biUnion.mpr ⟨c, ?_, ?_⟩)
          · exact Finset.mem_filter.mpr ⟨Finset.mem_range.mpr hcn, hEc⟩
          · exact (ih (by omega) c (by omega) hcn j).mpr hcj
    · rw [descAux_succ_apply, if_neg hki]
      exact ih (by omega) k (by omega) hk2 j

lemma ancAux_mem (E : Nat → Nat → Bool) (n : Nat)
    (hE : ∀ i j, E i j = true → i < j) :
    ∀ d, d ≤ n → ∀ k, k < d → ∀ i,
      (i ∈ ancAux E n d k ↔
        Relation.ReflTransGen (fun a b => a < n ∧ b < n ∧ E a b = true) i k) := by
  intro d
  induction d with
  | zero => intro _ k hk i; omega
  | succ d ih =>
    intro hd k hk i
    by_cases hkd : k = d
    · subst hkd
      rw [ancAux_succ_apply, if_pos rfl, ancAux_untouched E n k k (le_refl k)]
      constructor
      · intro hi
        rcases Finset.mem_union.mp hi with h1 | h1
        · rw [Finset.mem_singleton.mp h1]
        · obtain ⟨c, hc, hic⟩ := Finset.mem_biUnion.mp h1
          obtain ⟨hcn, hEc⟩ := Finset.mem_filter.mp hc
          have hcn' : c < n := Finset.mem_range.mp hcn
          have hlt : c < k := hE _ _ hEc
          have hrc := (ih (by omega) c (by omega) i).mp hic
          exact Relation.ReflTransGen.tail hrc ⟨hcn', by omega, hEc⟩
      · intro hr
        rcases Relation.ReflTransGen.cases_tail hr with heq | ⟨c, hic, hck⟩
        · exact Finset.mem_union_left _ (Finset.mem_singleton.mpr heq.symm)
        · obtain ⟨hcn, _, hEc⟩ := hck
          have hlt : c < k := hE _ _ hEc
          refine Finset.mem_union_right _ (Finset.mem_biUnion.mpr ⟨c, ?_, ?_⟩)
          · exact Finset.mem_filter.mpr ⟨Finset.mem_range.mpr hcn, hEc⟩
          · exact (ih (by omega) c (by omega) i).mpr hic
    · rw [ancAux_succ_apply, if_neg hkd]
      exact ih (by omega) k (by omega) i

/-- C5: for every pending window of size n whose edge relation E runs forward
in node-id order (spec invariant I3, which the single-sweep algorithm relies
on), the two bitset families returned by compute_transitive_closure are
consistent: position b lies in the descendant bitset of position a if and
only if position a lies in the ancestor bitset of position b. -/
theorem transitive_closure_consistent (E : Nat → Nat → Bool) (n : Nat)
    (hE : ∀ i j, E i j = true → i < j) (a b : Nat) (ha : a < n) (hb : b < n) :
    (b ∈ (compute_transitive_closure E n).1 a ↔
      a ∈ (compute_transitive_closure E n).2 b) := by
  show b ∈ descAux E n n a ↔ a ∈ ancAux E n n b
  rw [descAux_mem E n hE n (le_refl n) a (by omega) ha b,
    ancAux_mem E n hE n (le_refl n) b hb a]

/-- C5 witness: concrete two-node window with the single edge 0 → 1. -/
theorem transitive_closure_consistent_witness :
    (1 ∈ (compute_transitive_closure (fun i j => decide (i = 0 ∧ j = 1)) 2).1 0 ↔
      0 ∈ (compute_transitive_closure (fun i j => decide (i = 0 ∧ j = 1)) 2).2 1) :=
  transitive_closure_consistent (fun i j => decide (i = 0 ∧ j = 1)) 2
    (by intro i j h; simp at h; omega) 0 1 (by decide) (by decide)

/- ============ state_flow_graph.h : graph rebuild (C7) ============ -/

/-- One pending launch record together with its TaskMeta state sets (the
unordered read/write sets an insertion consumes), as rebuild_graph re-inserts
them. -/
structure TaskRec where
  payload : Nat
  input_states : Finset AsyncState
  output_states : Finset AsyncState
deriving DecidableEq

/-- Default record for out-of-range lookups. -/
def dTaskRec : TaskRec := ⟨0, ∅, ∅⟩

/-- Construction state while re-deriving the pending subgraph: latest state
owner (node id, 0 being the initial node), latest state readers, and the
per-state edge set (from, to, state) accumulated so far. -/
structure BuildState where
  owner : AsyncState → Nat
  readers : AsyncState → Finset Nat
  edges : Finset (Nat × Nat × AsyncState)

/-- Modelled from the spec (section 4.2, insert_tasks; no definition in the
given sources): wiring one new node k.  For every input state, a flow edge
from the latest owner (or the initial node 0) and the node recorded as a
reader; for every output state, dependency edges from every current reader
(other than the node itself) and from the current owner, then the node
becomes the owner and the reader set is cleared. -/
def insertTaskEdges (bs : BuildState) (r : TaskRec) (k : Nat) : BuildState :=
  let readers1 : AsyncState → Finset Nat :=
    fun s => if s ∈ r.input_states then insert k (bs.readers s) else bs.readers s
  { owner := fun s => if s ∈ r.output_states then k else bs.owner s,
    readers := fun s => if s ∈ r.output_states then ∅ else readers1 s,
    edges := bs.edges ∪ r.input_states.image (fun s => (bs.owner s, k, s)) ∪
      r.output_states.biUnion (fun s =>
        insert (bs.owner s, k, s)
          (((readers1 s).erase k).image (fun rd => (rd, k, s)))) }

/-- Sequential insertion of the pending records, node ids counting up. -/
def buildAux : List TaskRec → Nat → BuildState → BuildState
  | [], _, bs => bs
  | r :: rest, k, bs => buildAux rest (k + 1) (insertTaskEdges bs r k)

/-- Fresh construction state: the initial node 0 owns every state. -/
def initBuild : BuildState := ⟨fun _ => 0, fun _ => ∅, ∅⟩

/-- Edge set re-derived from a pending record sequence (ids 1..len, id 0
being the initial node). -/
def buildEdges (rs : List TaskRec) : Finset (Nat × Nat × AsyncState) :=
  (buildAux rs 1 initBuild).edges

/-- Pending subgraph: the pending records in sequence order and the derived
edge set. -/
structure PendingGraph where
  recs : List TaskRec
  edges : Finset (Nat × Nat × AsyncState)
deriving DecidableEq

/-- Window edge relation between pending positions (position i is node id
i+1). -/
def pgEdgeB (g : PendingGraph) (i j : Nat) : Bool :=
  decide (∃ e ∈ g.edges, e.1 = i + 1 ∧ e.2.1 = j + 1)

/-- Modelled from the spec: rebuild_graph(sort) (declared at header lines
165-166, not defined in the given sources) discards and re-derives the
pending subgraph by re-inserting the same pending launch records, optionally
first reordering them by the stable topological sort of the current edges. -/
def rebuild_graph (sort : Bool) (g : PendingGraph) : PendingGraph :=
  let order :=
    if sort then
      (topoKahn g.recs.length (pgEdgeB g)).map (fun i => g.recs.getD i dTaskRec)
    else g.recs
  { recs := order, edges := buildEdges order }

lemma rebuild_graph_true (g : PendingGraph) :
    rebuild_graph true g =
      { recs := (topoKahn g.recs.length (pgEdgeB g)).map (fun i => g.recs.getD i dTaskRec),
        edges := buildEdges
          ((topoKahn g.recs.length (pgEdgeB g)).map (fun i => g.recs.getD i dTaskRec)) } := rfl

/-- Invariant of the construction: owners and readers are nodes already
placed, and every edge points forward. -/
def buildInv (bs : BuildState) (k : Nat) : Prop :=
  (∀ s, bs.owner s < k) ∧ (∀ s x, x ∈ bs.readers s → x < k) ∧
  (∀ e ∈ bs.edges, e.1 < e.2.1)

lemma insertTaskEdges_inv (bs : BuildState) (r : TaskRec) (k : Nat)
    (h : buildInv bs k) : buildInv (insertTaskEdges bs r k) (k + 1) := by
  obtain ⟨h1, h2, h3⟩ := h
  refine ⟨?_, ?_, ?_⟩
  · intro s
    show (if s ∈ r.output_states then k else bs.owner s) < k + 1
    by_cases hs : s ∈ r.output_states
    · rw [if_pos hs]; omega
    · rw [if_neg hs]; have := h1 s; omega
  · intro s x hx
    have hx' : x ∈ (if s ∈ r.output_states then (∅ : Finset Nat)
        else if s ∈ r.input_states then insert k (bs.readers s) else bs.readers s) := hx
    by_cases hs : s ∈ r.output_states
    · rw [if_pos hs] at hx'
      exact absurd hx' (Finset.not_mem_empty x)
    · rw [if_neg hs] at hx'
      by_cases hi : s ∈ r.input_states
      · rw [if_pos hi] at hx'
        rcases Finset.mem_insert.mp hx' with h4 | h4
        · omega
        · have := h2 s x h4; omega
      · rw [if_neg hi] at hx'
        have := h2 s x hx'; omega
  · intro e he
    have he' : e ∈ bs.edges ∪ r.input_states.image (fun s => (bs.owner s, k, s)) ∪
        r.output_states.biUnion (fun s =>
          insert (bs.owner s, k, s)
            ((((if s ∈ r.input_states then insert k (bs.readers s) else bs.readers s)).erase k).image
              (fun rd => (rd, k, s)))) := he
    rcases Finset.mem_union.mp he' with hu | hdep
    · rcases Finset.mem_union.mp hu with hold | hflow
      · exact h3 e hold
      · obtain ⟨s, hsmem, heq⟩ := Finset.mem_image.mp hflow
        rw [← heq]
        show bs.owner s < k
        exact h1 s
    · obtain ⟨s, hsmem, hin⟩ := Finset.mem_biUnion.mp hdep
      rcases Finset.mem_insert.mp hin with heq | himg
      · rw [heq]
        show bs.owner s < k
        exact h1 s
      · obtain ⟨rd, hrd, heq⟩ := Finset.mem_image.mp himg
        rw [← heq]
        show rd < k
        obtain ⟨hne, hmem⟩ := Finset.mem_erase.mp hrd
        by_cases hi : s ∈ r.input_states
        · rw [if_pos hi] at hmem
          rcases Finset.mem_insert.mp hmem with h4 | h4
          · exact absurd h4 hne
          · exact h2 s rd h4
        · rw [if_neg hi] at hmem
          exact h2 s rd hmem

lemma buildAux_forward : ∀ (rs : List TaskRec) (k : Nat) (bs : BuildState),
    buildInv bs k → ∀ e ∈ (buildAux rs k bs).edges, e.1 < e.2.1 := by
  intro rs
  induction rs with
  | nil => intro k bs h e he; exact h.2.2 e he
  | cons r rest ih =>
    intro k bs h e he
    exact ih (k + 1) _ (insertTaskEdges_inv bs r k h) e he

lemma buildEdges_forward (rs : List TaskRec) : ∀ e ∈ buildEdges rs, e.1 < e.2.1 :=
  buildAux_forward rs 1 initBuild
    ⟨fun _ => Nat.one_pos,
     fun _ x hx => absurd hx (Finset.not_mem_empty x),
     fun e he => absurd he (Finset.not_mem_empty e)⟩

lemma pgEdgeB_forward (g : PendingGraph) (hg : ∀ e ∈ g.edges, e.1 < e.2.1) :
    ∀ i j, pgEdgeB g i j = true → i < j := by
  intro i j h
  simp only [pgEdgeB, decide_eq_true_eq] at h
  obtain ⟨e, he, h1, h2⟩ := h
  have := hg e he
  omega

lemma map_getD_len {α : Type} (l : List α) (d : α) :
    (List.range l.length).map (fun i => l.getD i d) = l := by
  apply List.ext_getElem
  · simp
  · intro i h1 h2
    simp only [List.getElem_map, List.getElem_range]
    exact List.getD_eq_getElem l d h2

/-- C7: rebuild_graph is idempotent for either value of the sort flag: with
no intervening insertions, a second rebuild re-derives exactly the same
pending record order and the same edge set, because rebuilding produces only
forward edges and the stable topological sort of a forward-edge sequence is
the identity permutation. -/
theorem rebuild_graph_idempotent (sort : Bool) (g : PendingGraph) :
    rebuild_graph sort (rebuild_graph sort g) = rebuild_graph sort g := by
  cases sort with
  | false => rfl
  | true =>
    have h1 : ∀ e ∈ (rebuild_graph true g).edges, e.1 < e.2.1 :=
      buildEdges_forward
        ((topoKahn g.recs.length (pgEdgeB g)).map (fun i => g.recs.getD i dTaskRec))
    have h2 : ∀ i j, pgEdgeB (rebuild_graph true g) i j = true → i < j :=
      pgEdgeB_forward _ h1
    have horder : (topoKahn (rebuild_graph true g).recs.length
          (pgEdgeB (rebuild_graph true g))).map
          (fun i => (rebuild_graph true g).recs.getD i dTaskRec) =
        (rebuild_graph true g).recs := by
      rw [topoKahn_forward_id _ _ h2, map_getD_len]
    rw [rebuild_graph_true (rebuild_graph true g), horder]
    exact rfl

/- ============ state_flow_graph.h : edge-store reciprocity (C3) ============ -/

/-- Abstract view of all nodes' per-state edge stores: for each node id and
state, the set of neighbor ids recorded in its input_edges and output_edges
containers (the association-list container collapses to its lookup
function). -/
structure EdgeStores where
  input_edges : Nat → AsyncState → Finset Nat
  output_edges : Nat → AsyncState → Finset Nat

/-- Modelled from the spec: insert_edge(a, b, s) (declared at header line 133,
not defined in the given sources) records b in a's output edges under s and a
in b's input edges under s. -/
def insertEdgeF (g : EdgeStores) (a b : Nat) (s : AsyncState) : EdgeStores :=
  { input_edges := fun x t =>
      if x = b ∧ t = s then insert a (g.input_edges x t) else g.input_edges x t,
    output_edges := fun x t =>
      if x = a ∧ t = s then insert b (g.output_edges x t) else g.output_edges x t }

/-- Modelled from the spec: Node::disconnect_with (header line 99, not defined
in the given sources) removes each node from every per-state edge set of the
other, on both edge stores. -/
def disconnectWith (g : EdgeStores) (a b : Nat) : EdgeStores :=
  { input_edges := fun x t =>
      if x = a then (g.input_edges x t).erase b
      else if x = b then (g.input_edges x t).erase a
      else g.input_edges x t,
    output_edges := fun x t =>
      if x = a then (g.output_edges x t).erase b
      else if x = b then (g.output_edges x t).erase a
      else g.output_edges x t }

/-- Modelled from the spec: the outgoing half of replace_reference(a, b)
(header lines 157-159, not defined in the given sources) — every edge leaving
a is rewired to leave b: a's output sets move into b's, and every input set
that names a as a source names b instead. -/
def replaceRefOut (g : EdgeStores) (a b : Nat) : EdgeStores :=
  { input_edges := fun x t =>
      if a ∈ g.input_edges x t then insert b ((g.input_edges x t).erase a)
      else g.input_edges x t,
    output_edges := fun x t =>
      if x = a then ∅
      else if x = b then g.output_edges b t ∪ g.output_edges a t
      else g.output_edges x t }

/-- Modelled from the spec: the incoming half of replace_reference(a, b) —
every edge entering a is rewired to enter b. -/
def replaceRefIn (g : EdgeStores) (a b : Nat) : EdgeStores :=
  { input_edges := fun x t =>
      if x = a then ∅
      else if x = b then g.input_edges b t ∪ g.input_edges a t
      else g.input_edges x t,
    output_edges := fun x t =>
      if a ∈ g.output_edges x t then insert b ((g.output_edges x t).erase a)
      else g.output_edges x t }

/-- Modelled from the spec: replace_reference(a, b, only_output_edges)
rewires every edge that names a to instead name b, optionally limited to a's
outgoing edges. -/
def replace_reference (g : EdgeStores) (a b : Nat) (only_output_edges : Bool) :
    EdgeStores :=
  if only_output_edges then replaceRefOut g a b
  else replaceRefOut (replaceRefIn g a b) a b

/-- Reciprocity of the edge stores (spec invariant I5). -/
def Reciprocal (g : EdgeStores) : Prop :=
  ∀ a b s, a ∈ g.input_edges b s ↔ b ∈ g.output_edges a s

/-- Swap the two stores, reversing every edge. -/
def flipStores (g : EdgeStores) : EdgeStores :=
  { input_edges := g.output_edges, output_edges := g.input_edges }

lemma recip_flip (g : EdgeStores) (h : Reciprocal g) : Reciprocal (flipStores g) := by
  intro x y t
  exact (h y x t).symm

lemma recip_insertEdgeF (g : EdgeStores) (a b : Nat) (s : AsyncState)
    (h : Reciprocal g) : Reciprocal (insertEdgeF g a b s) := by
  intro x y t
  show x ∈ (if y = b ∧ t = s then insert a (g.input_edges y t) else g.input_edges y t) ↔
    y ∈ (if x = a ∧ t = s then insert b (g.output_edges x t) else g.output_edges x t)
  by_cases h1 : y = b ∧ t = s
  · obtain ⟨rfl, rfl⟩ := h1
    rw [if_pos ⟨rfl, rfl⟩]
    by_cases h2 : x = a
    · subst h2
      rw [if_pos ⟨rfl, rfl⟩]
      simp
    · rw [if_neg (fun hc => h2 hc.1), Finset.mem_insert]
      constructor
      · intro hx
        rcases hx with hx | hx
        · exact absurd hx h2
        · exact (h x y t).mp hx
      · intro hy
        exact Or.inr ((h x y t).mpr hy)
  · rw [if_neg h1]
    by_cases h2 : x = a ∧ t = s
    · obtain ⟨rfl, rfl⟩ := h2
      rw [if_pos ⟨rfl, rfl⟩, Finset.mem_insert]
      have hyb : y ≠ b := fun hc => h1 ⟨hc, rfl⟩
      constructor
      · intro hx
        exact Or.inr ((h x y t).mp hx)
      · intro hy
        rcases hy with hy | hy
        · exact absurd hy hyb
        · exact (h x y t).mpr hy
    · rw [if_neg h2]
      exact h x y t

lemma disconnectWith_input_mem (g : EdgeStores) (a b x y : Nat) (t : AsyncState) :
    x ∈ (disconnectWith g a b).input_edges y t ↔
      (x ∈ g.input_edges y t ∧ ¬(y = a ∧ x = b) ∧ ¬(y = b ∧ x = a)) := by
  show x ∈ (if y = a then (g.input_edges y t).erase b
      else if y = b then (g.input_edges y t).erase a
      else g.input_edges y t) ↔ _
  by_cases hya : y = a
  · rw [if_pos hya, Finset.mem_erase]
    constructor
    · rintro ⟨hne, hmem⟩
      exact ⟨hmem, by omega, by omega⟩
    · rintro ⟨hmem, h2, h3⟩
      exact ⟨by omega, hmem⟩
  · rw [if_neg hya]
    by_cases hyb : y = b
    · rw [if_pos hyb, Finset.mem_erase]
      constructor
      · rintro ⟨hne, hmem⟩
        exact ⟨hmem, by omega, by omega⟩
      · rintro ⟨hmem, h2, h3⟩
        exact ⟨by omega, hmem⟩
    · rw [if_neg hyb]
      constructor
      · intro hmem
        exact ⟨hmem, by omega, by omega⟩
      · rintro ⟨hmem, _, _⟩
        exact hmem

lemma disconnectWith_output_mem (g : EdgeStores) (a b x y : Nat) (t : AsyncState) :
    y ∈ (disconnectWith g a b).output_edges x t ↔
      (y ∈ g.output_edges x t ∧ ¬(x = a ∧ y = b) ∧ ¬(x = b ∧ y = a)) := by
  show y ∈ (if x = a then (g.output_edges x t).erase b
      else if x = b then (g.output_edges x t).erase a
      else g.output_edges x t) ↔ _
  by_cases hxa : x = a
  · rw [if_pos hxa, Finset.mem_erase]
    constructor
    · rintro ⟨hne, hmem⟩
      exact ⟨hmem, by omega, by omega⟩
    · rintro ⟨hmem, h2, h3⟩
      exact ⟨by omega, hmem⟩
  · rw [if_neg hxa]
    by_cases hxb : x = b
    · rw [if_pos hxb, Finset.mem_erase]
      constructor
      · rintro ⟨hne, hmem⟩
        exact ⟨hmem, by omega, by omega⟩
      · rintro ⟨hmem, h2, h3⟩
        exact ⟨by omega, hmem⟩
    · rw [if_neg hxb]
      constructor
      · intro hmem
        exact ⟨hmem, by omega, by omega⟩
      · rintro ⟨hmem, _, _⟩
        exact hmem

lemma recip_disconnectWith (g : EdgeStores) (a b : Nat) (h : Reciprocal g) :
    Reciprocal (disconnectWith g a b) := by
  intro x y t
  rw [disconnectWith_input_mem, disconnectWith_output_mem, h x y t]
  tauto

lemma recip_replaceRefOut (g : EdgeStores) (a b : Nat) (hab : a ≠ b)
    (h : Reciprocal g) : Reciprocal (replaceRefOut g a b) := by
  intro x y t
  show x ∈ (if a ∈ g.input_edges y t then insert b ((g.input_edges y t).erase a)
      else g.input_edges y t) ↔
    y ∈ (if x = a then (∅ : Finset Nat)
      else if x = b then g.output_edges b t ∪ g.output_edges a t
      else g.output_edges x t)
  by_cases hxa : x = a
  · rw [if_pos hxa, hxa]
    simp only [Finset.not_mem_empty, iff_false]
    by_cases hin : a ∈ g.input_edges y t
    · rw [if_pos hin]
      intro hmem
      rcases Finset.mem_insert.mp hmem with h1 | h1
      · exact hab h1
      · exact (Finset.mem_erase.mp h1).1 rfl
    · rw [if_neg hin]
      exact hin
  · rw [if_neg hxa]
    by_cases hxb : x = b
    · rw [if_pos hxb, Finset.mem_union]
      by_cases hin : a ∈ g.input_edges y t
      · rw [if_pos hin]
        constructor
        · intro _
          exact Or.inr ((h a y t).mp hin)
        · intro _
          rw [hxb]
          exact Finset.mem_insert_self b _
      · rw [if_neg hin]
        constructor
        · intro hmem
          exact Or.inl ((h b y t).mp (hxb ▸ hmem))
        · intro hmem
          rcases hmem with h1 | h1
          · rw [hxb]
            exact (h b y t).mpr h1
          · exact absurd ((h a y t).mpr h1) hin
    · rw [if_neg hxb]
      by_cases hin : a ∈ g.input_edges y t
      · rw [if_pos hin]
        rw [Finset.mem_insert, Finset.mem_erase]
        constructor
        · intro hmem
          rcases hmem with h1 | ⟨h2, h3⟩
          · exact absurd h1 hxb
          · exact (h x y t).mp h3
        · intro hy
          exact Or.inr ⟨hxa, (h x y t).mpr hy⟩
      · rw [if_neg hin]
        exact h x y t

lemma recip_replaceRefIn (g : EdgeStores) (a b : Nat) (hab : a ≠ b)
    (h : Reciprocal g) : Reciprocal (replaceRefIn g a b) := by
  have h2 := recip_replaceRefOut (flipStores g) a b hab (recip_flip g h)
  have h3 := recip_flip _ h2
  exact h3

lemma recip_replace_reference (g : EdgeStores) (a b : Nat)
    (oo : Bool) (hab : a ≠ b) (h : Reciprocal g) :
    Reciprocal (replace_reference g a b oo) := by
  cases oo with
  | true => exact recip_replaceRefOut g a b hab h
  | false =>
    exact recip_replaceRefOut (replaceRefIn g a b) a b hab
      (recip_replaceRefIn g a b hab h)

/-- Modelled from the spec: edge-store states reachable from the empty graph
by the public operations that mutate edges — insert_edge, the disconnect
operations used by delete_nodes, and replace_reference with two distinct
nodes (the spec uses it only when one node supersedes another); none of these
operations are defined in the given sources. -/
inductive EdgeStoresReaches : EdgeStores → Prop where
  | start : EdgeStoresReaches ⟨fun _ _ => ∅, fun _ _ => ∅⟩
  | insert_edge (g : EdgeStores) (a b : Nat) (s : AsyncState) :
      EdgeStoresReaches g → EdgeStoresReaches (insertEdgeF g a b s)
  | disconnect (g : EdgeStores) (a b : Nat) :
      EdgeStoresReaches g → EdgeStoresReaches (disconnectWith g a b)
  | replace (g : EdgeStores) (a b : Nat) (oo : Bool) (hab : a ≠ b) :
      EdgeStoresReaches g → EdgeStoresReaches (replace_reference g a b oo)

/-- C3: in every reachable edge-store state the two stores are reciprocal —
for all nodes A, B and every state s, A is recorded in B's input_edges under
s if and only if B is recorded in A's output_edges under s — and this
biconditional is preserved by every public operation that mutates edges
(insert_edge, the disconnects of delete_nodes, and replace_reference in either
mode), as the induction over the operation sequence shows. -/
theorem edge_stores_reciprocal (g : EdgeStores) (h : EdgeStoresReaches g) :
    ∀ a b s, a ∈ g.input_edges b s ↔ b ∈ g.output_edges a s := by
  induction h with
  | start => intro a b s; simp
  | insert_edge g a b s _ ih => exact recip_insertEdgeF g a b s ih
  | disconnect g a b _ ih => exact recip_disconnectWith g a b ih
  | replace g a b oo hab _ ih => exact recip_replace_reference g a b oo hab ih

/-- C3 witness: reciprocity evaluated on the concrete store obtained by one
insert_edge from the empty graph. -/
theorem edge_stores_reciprocal_witness :
    (1 ∈ (insertEdgeF ⟨fun _ _ => ∅, fun _ _ => ∅⟩ 1 2 5).input_edges 2 5 ↔
      2 ∈ (insertEdgeF ⟨fun _ _ => ∅, fun _ _ => ∅⟩ 1 2 5).output_edges 1 5) :=
  edge_stores_reciprocal _
    (EdgeStoresReaches.insert_edge _ 1 2 5 EdgeStoresReaches.start) 1 2 5
